import Mathlib

/-!
Verification of the block-diff / decoration core of the `critique` editor.

The definitions below are a shallow embedding of the JavaScript source:
  * `blockDiffUtils` (the LCS-based version): `getBlockText`,
    `getBlockSignature`, `computeLCS`, `computeBlockDiffs`, `computeWordDiff`;
  * `DiffHighlightExtension.js`: `findDocPosition`, `buildInlineDecorations`
    (its per-segment loop), and the deleted-block widget placement of
    `buildDecorations`.

JavaScript idioms are modelled explicitly:
  * a JS `Map` built from key/value pairs is an association list where a
    repeated key overwrites the stored value in place (`mapInsert`,
    `mapOfList`); iteration order is insertion order of keys;
  * a JS `Set` of numbers is a `List Nat` used only through `contains`;
  * string truthiness (`if (s)`) is an explicit emptiness test;
  * machine integers do not overflow here: every quantity is a list index,
    a string length or a sum of those, so `Nat` is the faithful carrier.

Recursive functions that `decide`/`rfl` must evaluate are written with
structural recursion (a fuel argument for the LCS table, where the fuel
`i + j` is provably sufficient and fuel-irrelevance is proved).
-/

namespace Critique

/-! ## Block model and text extraction (`blockDiffUtils`) -/

/-- An element of a block's inline `content` array: either a plain string or
an object with optional `type` and `text` fields (the shapes probed by
`getBlockText`). -/
inductive InlineItem where
  | str (s : String)
  | obj (type : Option String) (text : Option String)
deriving DecidableEq, Repr

/-- A BlockNote block: `{id, type, content?, text?}`. `content = some l`
models a present array (possibly empty — a JS array is always truthy). -/
structure Block where
  id : String
  type : String
  content : Option (List InlineItem) := none
  text : Option String := none
deriving DecidableEq, Repr

/-- Concatenation of a list of strings (JS `array.join('')`). -/
def joinStr (l : List String) : String :=
  l.foldr (fun s acc => s ++ acc) ""

/-- Text of one inline item, from the `map` callback in `getBlockText`:
string items verbatim; `type === 'text'` items give `item.text || ''`;
otherwise a truthy `item.text` field; otherwise `''`. -/
def getItemText : InlineItem → String
  | .str s => s
  | .obj ty tx =>
    if ty = some "text" then
      match tx with
      | some t => t
      | none => ""
    else
      match tx with
      | some t => if t = "" then "" else t
      | none => ""

/-- Embedding of `getBlockText(block)`: join the extracted item texts when `content` is an
array, else a truthy direct `text` field, else `''`. -/
def getBlockText (b : Block) : String :=
  match b.content with
  | some items => joinStr (items.map getItemText)
  | none =>
    match b.text with
    | some t => if t = "" then "" else t
    | none => ""

/-- Embedding of `getBlockSignature(block)`, that is `type + ":" + text`. -/
def getBlockSignature (b : Block) : String :=
  b.type ++ ":" ++ getBlockText b

/-! ## JS `Map` model -/

/-- JS `map.set(k, v)`: overwrite in place when the key is present, else append. -/
def mapInsert {α : Type} (m : List (String × α)) (k : String) (v : α) :
    List (String × α) :=
  if m.any (fun p => p.1 = k) then
    m.map (fun p => if p.1 = k then (k, v) else p)
  else
    m ++ [(k, v)]

/-- JS `new Map(pairs)`: insert the pairs left to right. -/
def mapOfList {α : Type} (l : List (String × α)) : List (String × α) :=
  l.foldl (fun m p => mapInsert m p.1 p.2) []

/-- JS `map.get(k)`: the stored value, if any. -/
def mapGet {α : Type} (m : List (String × α)) (k : String) : Option α :=
  (m.find? (fun p => p.1 = k)).map (fun p => p.2)

/-! ## LCS table and backtracking (`computeLCS`)

`dp sa sb i j` is the value `dp[i][j]` of the JS dynamic-programming table
for signature lists `sa`, `sb`: it satisfies the table recurrence
(`dp_succ_succ` below).  The fuel argument makes the recursion structural so
that the kernel can evaluate it; `i + j` fuel always suffices. -/

def dpAux (sa sb : List String) : Nat → Nat → Nat → Nat
  | _, 0, _ => 0
  | _, _ + 1, 0 => 0
  | 0, _ + 1, _ + 1 => 0
  | fuel + 1, i + 1, j + 1 =>
    if sa.getD i "" = sb.getD j "" then
      dpAux sa sb fuel i j + 1
    else
      max (dpAux sa sb fuel i (j + 1)) (dpAux sa sb fuel (i + 1) j)

/-- Entry `dp[i][j]` of the JS LCS table. -/
def dp (sa sb : List String) (i j : Nat) : Nat :=
  dpAux sa sb (i + j) i j

/-- The backtracking loop of `computeLCS`: walk from cell `(i, j)` toward
`(0, 0)`, prepending a matched pair on signature equality, otherwise moving
to `(i-1, j)` when `dp[i-1][j] > dp[i][j-1]` and to `(i, j-1)` otherwise. -/
def btAux (sa sb : List String) : Nat → Nat → Nat → List (Nat × Nat)
  | _, 0, _ => []
  | _, _ + 1, 0 => []
  | 0, _ + 1, _ + 1 => []
  | fuel + 1, i + 1, j + 1 =>
    if sa.getD i "" = sb.getD j "" then
      btAux sa sb fuel i j ++ [(i, j)]
    else if dp sa sb i (j + 1) > dp sa sb (i + 1) j then
      btAux sa sb fuel i (j + 1)
    else
      btAux sa sb fuel (i + 1) j

/-- Backtracking from cell `(i, j)` (with provably sufficient fuel). -/
def backtrack (sa sb : List String) (i j : Nat) : List (Nat × Nat) :=
  btAux sa sb (i + j) i j

/-- Embedding of `computeLCS(original, current)`: matched `[origIdx, currIdx]` pairs from
backtracking the full table over block signatures. -/
def computeLCS (original current : List Block) : List (Nat × Nat) :=
  backtrack (original.map getBlockSignature) (current.map getBlockSignature)
    original.length current.length

/-! ## Block diffs (`computeBlockDiffs`) -/

inductive DiffType where
  | unchanged
  | modified
  | added
  | deleted
deriving DecidableEq, Repr

/-- A diff record.  Optional fields model JS fields that are present only on
some diff kinds; `afterBlockId = some v` models a present field of value `v`
(`v = none` being JS `null`). -/
structure BlockDiff where
  type : DiffType
  blockId : String
  originalText : Option String := none
  currentText : Option String := none
  originalType : Option String := none
  position : Nat
  afterBlockId : Option (Option String) := none
deriving DecidableEq, Repr

/-- The mutable state threaded through passes 1 and 2: the two matched-index
sets and the diff list being pushed to. -/
structure MatchState where
  matchedOriginal : List Nat
  matchedCurrent : List Nat
  diffs : List BlockDiff
deriving DecidableEq, Repr

/-- JS `list.map((b, idx) => ...)` with the index made explicit. -/
def withIdxFrom {α : Type} : Nat → List α → List (α × Nat)
  | _, [] => []
  | k, b :: bs => (b, k) :: withIdxFrom (k + 1) bs

def withIdx {α : Type} (l : List α) : List (α × Nat) :=
  withIdxFrom 0 l

/-- JS `new Map(blocks.map((b, idx) => [b.id, { block: b, idx }]))`. -/
def idMap (blocks : List Block) : List (String × Block × Nat) :=
  mapOfList ((withIdx blocks).map (fun p => (p.1.id, p.1, p.2)))

/-- One iteration of pass 1 over an entry `(id, (curr, currIdx))` of
`currentById`: on an id hit mark both indices matched and push `unchanged`
or `modified` according to extracted text and type. -/
def pass1Step (originalById : List (String × Block × Nat))
    (st : MatchState) (e : String × Block × Nat) : MatchState :=
  match mapGet originalById e.1 with
  | none => st
  | some (ob, oidx) =>
    let originalText := getBlockText ob
    let currentText := getBlockText e.2.1
    let d : BlockDiff :=
      if originalText = currentText ∧ ob.type = e.2.1.type then
        { type := .unchanged, blockId := e.1, position := e.2.2 }
      else
        { type := .modified, blockId := e.1, originalText := some originalText,
          currentText := some currentText, position := e.2.2 }
    { matchedOriginal := st.matchedOriginal ++ [oidx],
      matchedCurrent := st.matchedCurrent ++ [e.2.2],
      diffs := st.diffs ++ [d] }

/-- Pass 1: iterate over the entries of `currentById`. -/
def pass1 (o c : List Block) : MatchState :=
  (idMap c).foldl (pass1Step (idMap o))
    { matchedOriginal := [], matchedCurrent := [], diffs := [] }

/-- The unmatched `{block, idx}` list feeding pass 2. -/
def unmatchedOf (blocks : List Block) (matched : List Nat) :
    List (Block × Nat) :=
  (withIdx blocks).filter (fun x => ¬ matched.contains x.2)

def dummyBlock : Block := { id := "", type := "" }

/-- The `added` diff pushed for a current leftover `{block, idx}`. -/
def addedDiffOf (x : Block × Nat) : BlockDiff :=
  { type := .added, blockId := x.1.id,
    currentText := some (getBlockText x.1), position := x.2 }

/-- One iteration of the LCS-match loop of pass 2: mark both global indices
matched and push an `unchanged` diff at the current block's position. -/
def pass2LcsStep (uO uC : List (Block × Nat)) (s : MatchState)
    (pr : Nat × Nat) : MatchState :=
  let orig := uO.getD pr.1 (dummyBlock, 0)
  let curr := uC.getD pr.2 (dummyBlock, 0)
  { matchedOriginal := s.matchedOriginal ++ [orig.2],
    matchedCurrent := s.matchedCurrent ++ [curr.2],
    diffs := s.diffs ++
      [{ type := .unchanged, blockId := curr.1.id, position := curr.2 }] }

/-- Pass 2: LCS over the two leftover lists when both are non-empty (each
match pushed as `unchanged`, the remaining current leftovers as `added`),
else all current leftovers pushed as `added`. -/
def pass2 (st : MatchState) (uO uC : List (Block × Nat)) : MatchState :=
  if uO.length > 0 ∧ uC.length > 0 then
    let lcsMatches := computeLCS (uO.map Prod.fst) (uC.map Prod.fst)
    let st2 := lcsMatches.foldl (pass2LcsStep uO uC) st
    let lcsMatchedCurr := lcsMatches.map Prod.snd
    { st2 with diffs := st2.diffs ++ (withIdx uC).filterMap (fun p =>
        if lcsMatchedCurr.contains p.2 then none
        else some (addedDiffOf p.1)) }
  else
    { st with diffs := st.diffs ++ uC.map addedDiffOf }

/-- The backward scan of pass 3 (`for (let j = i - 1; j >= 0; j--)`): from
just below the deleted index, find the nearest matched original index whose
block has a current counterpart (first current block equal by id or by
signature) and return that counterpart's id. -/
def scanBack (o c : List Block) (matched : List Nat) : Nat → Option String
  | 0 => none
  | j + 1 =>
    if matched.contains j then
      match c.find? (fun cb =>
          cb.id = (o.getD j dummyBlock).id ∨
          getBlockSignature cb = getBlockSignature (o.getD j dummyBlock)) with
      | some cb => some cb.id
      | none => scanBack o c matched j
    else
      scanBack o c matched j

/-- The `deleted` diff pushed for an unmatched original `{block, idx}`. -/
def deletedDiffOf (o c : List Block) (matched : List Nat)
    (p : Block × Nat) : BlockDiff :=
  { type := .deleted, blockId := p.1.id,
    originalText := some (getBlockText p.1),
    originalType := some p.1.type,
    position := p.2,
    afterBlockId := some (scanBack o c matched p.2) }

/-- Pass 3: every original index still unmatched becomes a `deleted` diff
carrying `afterBlockId` from the backward scan. -/
def pass3 (o c : List Block) (matched : List Nat) : List BlockDiff :=
  (withIdx o).filterMap (fun p =>
    if matched.contains p.2 then none
    else some (deletedDiffOf o c matched p))

/-- The match state once passes 1 and 2 have run. -/
def stateAfterPass2 (o c : List Block) : MatchState :=
  let st1 := pass1 o c
  pass2 st1 (unmatchedOf o st1.matchedOriginal)
    (unmatchedOf c st1.matchedCurrent)

/-- Embedding of `computeBlockDiffs(originalBlocks, currentBlocks)` for non-null inputs:
the diffs of passes 1 and 2 followed by the deleted diffs of pass 3. -/
def computeBlockDiffs (o c : List Block) : List BlockDiff :=
  let st2 := stateAfterPass2 o c
  st2.diffs ++ pass3 o c st2.matchedOriginal

/-! ## Word-level diff (`computeWordDiff`)

`computeWordDiff` itself (its empty-side short-circuits and the mapping of
change parts to `{type, value}` segments) is embedded from the source.  The
change parts come from `Diff.diffWords` of the external `diff` npm package,
whose code is not part of this repository. -/

inductive SegType where
  | equal
  | insert
  | delete
deriving DecidableEq, Repr

/-- A `WordDiffSegment`: `{type: 'equal'|'insert'|'delete', value: string}`. -/
structure Seg where
  type : SegType
  value : String
deriving DecidableEq, Repr

def isWordChar (ch : Char) : Bool :=
  ch.isAlphanum || ch == '_'

/-- Split a character list into maximal runs of word characters and of
non-word characters (the word-boundary tokenization). -/
def tokChars : List Char → List (List Char)
  | [] => []
  | ch :: cs =>
    match tokChars cs with
    | [] => [[ch]]
    | [] :: ts => [ch] :: ts
    | (d :: t) :: ts =>
      if isWordChar ch = isWordChar d then (ch :: d :: t) :: ts
      else [ch] :: (d :: t) :: ts

/-- Modelled from the spec: the tokenization of the external `diffWords`
("Tokenization is word-boundary based"): a string as its list of
word-boundary tokens. -/
def tokenize (s : String) : List String :=
  (tokChars s.data).map (fun l => String.mk l)

/-- Longest-common-subsequence length of two token lists. -/
def lcsLen : List String → List String → Nat
  | [], _ => 0
  | _ :: _, [] => 0
  | x :: xs, y :: ys =>
    if x = y then lcsLen xs ys + 1
    else max (lcsLen xs (y :: ys)) (lcsLen (x :: xs) ys)
termination_by a b => a.length + b.length

/-- Modelled from the spec: the external `Diff.diffWords` as an LCS-based
edit script over word-boundary tokens ("word-granularity diff between two
text strings" whose segments "must reconstruct both inputs"). -/
def diffTokens : List String → List String → List Seg
  | [], [] => []
  | [], y :: ys => ⟨.insert, y⟩ :: diffTokens [] ys
  | x :: xs, [] => ⟨.delete, x⟩ :: diffTokens xs []
  | x :: xs, y :: ys =>
    if x = y then ⟨.equal, x⟩ :: diffTokens xs ys
    else if lcsLen xs (y :: ys) ≥ lcsLen (x :: xs) ys then
      ⟨.delete, x⟩ :: diffTokens xs (y :: ys)
    else
      ⟨.insert, y⟩ :: diffTokens (x :: xs) ys
termination_by a b => a.length + b.length

/-- Embedding of `computeWordDiff(originalText, currentText)`: the source's empty-side
short-circuits around the (spec-modelled) word diff. -/
def computeWordDiff (originalText currentText : String) : List Seg :=
  if originalText = "" ∧ currentText = "" then []
  else if originalText = "" then [⟨.insert, currentText⟩]
  else if currentText = "" then [⟨.delete, originalText⟩]
  else diffTokens (tokenize originalText) (tokenize currentText)

/-- Concatenation of the `equal` and `delete` segment values, in order. -/
def joinOriginal (segs : List Seg) : String :=
  joinStr (segs.filterMap (fun s =>
    if s.type = .insert then none else some s.value))

/-- Concatenation of the `equal` and `insert` segment values, in order. -/
def joinCurrent (segs : List Seg) : String :=
  joinStr (segs.filterMap (fun s =>
    if s.type = .delete then none else some s.value))

/-! ## Position mapping and decorations (`DiffHighlightExtension.js`)

A `TextRun` is one entry of the `collectTextNodes` output
`{text, from, to}` (the spec's `{text, fromOffset, toOffset}`). -/

structure TextRun where
  text : String
  fromOffset : Nat
  toOffset : Nat
deriving DecidableEq, Repr

def dummyRun : TextRun := { text := "", fromOffset := 0, toOffset := 0 }

/-- A decoration instruction:
`inline` models `Decoration.inline(from, to, {class})`,
`widget` models the inline deleted-text `Decoration.widget(pos, ..., {side})`,
`blockWidget` models the deleted-block `Decoration.widget(pos, ..., {side, key})`. -/
inductive Deco where
  | inline (fromOffset toOffset : Nat) (cls : String)
  | widget (pos : Nat) (text : String) (side : Int)
  | blockWidget (pos : Nat) (renderedText : String) (blockType : String)
      (side : Int) (key : String)
deriving DecidableEq, Repr

/-- The scanning loop of `findDocPosition`: return the in-run position of
`textIndex` if some run contains it, else `none`. -/
def findDocLoop (textIndex : Nat) : List TextRun → Nat → Option Nat
  | [], _ => none
  | tn :: rest, cumulative =>
    if textIndex ≤ cumulative + tn.text.length then
      some (tn.fromOffset + (textIndex - cumulative))
    else
      findDocLoop textIndex rest (cumulative + tn.text.length)

/-- Embedding of `findDocPosition(textNodes, textIndex)`: the in-run position, else the
end of the last run, else `0`. -/
def findDocPosition (textNodes : List TextRun) (textIndex : Nat) : Nat :=
  match findDocLoop textIndex textNodes 0 with
  | some p => p
  | none =>
    match textNodes.getLast? with
    | some last => last.toOffset
    | none => 0

/-- Total length of the plain text of the first `k` runs. -/
def cumLen (tns : List TextRun) (k : Nat) : Nat :=
  ((tns.take k).map (fun tn => tn.text.length)).sum

/-- The inner loop of the `insert` branch of `buildInlineDecorations`: for
the segment range `[startIdx, endIdx)`, walk the runs with a running
cumulative length and push one clipped `diff-insert` inline decoration per
overlapping run. -/
def insertClips (startIdx endIdx : Nat) : List TextRun → Nat → List Deco
  | [], _ => []
  | tn :: rest, cumulative =>
    let nodeStart := cumulative
    let nodeEnd := cumulative + tn.text.length
    let emitted :=
      if nodeEnd > startIdx ∧ nodeStart < endIdx then
        let decoStart := max startIdx nodeStart
        let decoEnd := min endIdx nodeEnd
        let f := tn.fromOffset + (decoStart - nodeStart)
        let t := tn.fromOffset + (decoEnd - nodeStart)
        if f < t then [Deco.inline f t "diff-insert"] else []
      else []
    emitted ++ insertClips startIdx endIdx rest (cumulative + tn.text.length)

/-- One iteration of the segment loop of `buildInlineDecorations`, acting on
the running index and the decoration list. -/
def inlineStep (textNodes : List TextRun) (st : Nat × List Deco)
    (part : Seg) : Nat × List Deco :=
  match part.type with
  | .equal => (st.1 + part.value.length, st.2)
  | .insert =>
    (st.1 + part.value.length,
     st.2 ++ insertClips st.1 (st.1 + part.value.length) textNodes 0)
  | .delete =>
    (st.1,
     st.2 ++ [Deco.widget (findDocPosition textNodes st.1) part.value (-1)])

/-- Embedding of `buildInlineDecorations` on an already-collected run list. -/
def buildInlineDecorations (textNodes : List TextRun)
    (wordDiffs : List Seg) : List Deco :=
  if textNodes.isEmpty then []
  else (wordDiffs.foldl (inlineStep textNodes) (0, [])).2

/-- Sum of the index advances of a segment list: `equal` and `insert`
advance by the value's length, `delete` by nothing. -/
def advanceLen (segs : List Seg) : Nat :=
  (segs.map (fun s =>
    match s.type with
    | .delete => 0
    | _ => s.value.length)).sum

/-- The per-run clipped sub-range the spec requires for an `insert` segment
`[s, e)`: for run `k` (in index space `[cumLen k, cumLen (k+1))`), the
absolute range of the intersection when it is non-empty. -/
def clippedRangeForRun (tns : List TextRun) (s e k : Nat) : Option Deco :=
  let run := tns.getD k dummyRun
  let ns := cumLen tns k
  let ne := cumLen tns (k + 1)
  if max s ns < min e ne then
    some (Deco.inline (run.fromOffset + (max s ns - ns))
      (run.fromOffset + (min e ne - ns)) "diff-insert")
  else none

/-- Version of `clippedRangeForRun` generalized by the running cumulative offset, to
follow the loop of `insertClips` in the induction. -/
def clipAtAux (tns : List TextRun) (s e cum k : Nat) : Option Deco :=
  let run := tns.getD k dummyRun
  let ns := cum + cumLen tns k
  let ne := cum + cumLen tns (k + 1)
  if max s ns < min e ne then
    some (Deco.inline (run.fromOffset + (max s ns - ns))
      (run.fromOffset + (min e ne - ns)) "diff-insert")
  else none

/-- The entry list `blocks.map((b, idx) => [b.id, { block: b, idx }])` fed
to the `Map` constructor of passes 1's lookups. -/
def idPairs (blocks : List Block) : List (String × Block × Nat) :=
  (withIdx blocks).map (fun p => (p.1.id, p.1, p.2))

/-! ## Deleted-block widget placement (`buildDecorations`) -/

/-- JS `a || b` for an optional string field: the field's value when present
and non-empty, else the fallback. -/
def jsOr (o : Option String) (fallback : String) : String :=
  match o with
  | some t => if t = "" then fallback else t
  | none => fallback

/-- The placement of a deleted-block widget (`let insertPos = 0; if
(deleted.afterBlockId) { ... if (afterBlock) insertPos = afterBlock.endPos }`)
against the `blockId -> {pos, endPos}` index built from the live document. -/
def deletedInsertPos (blockPositions : List (String × Nat × Nat))
    (afterBlockId : Option (Option String)) : Nat :=
  match afterBlockId with
  | some (some id) =>
    if id = "" then 0
    else
      match mapGet blockPositions id with
      | some pr => pr.2
      | none => 0
  | _ => 0

/-- The deleted-block widget loop of `buildDecorations`: one widget per
deleted diff, rendered from `originalText`/`originalType`, at the resolved
insert position, with `side: 1` and key `deleted-${blockId}`. -/
def buildDeletedWidgets (blockPositions : List (String × Nat × Nat))
    (deletedBlocks : List BlockDiff) : List Deco :=
  deletedBlocks.map (fun d =>
    Deco.blockWidget (deletedInsertPos blockPositions d.afterBlockId)
      (jsOr d.originalText "") (jsOr d.originalType "paragraph") 1
      ("deleted-" ++ d.blockId))

/-! ## Spec-worded counterpart resolution (for the refinement comparison of
the deleted-diff `afterBlockId` claim) -/

/-- Modelled from the spec's words: the current counterpart of a matched
original block found "by identity if available, else by signature". -/
def specCounterpart (c : List Block) (ob : Block) : Option String :=
  match c.find? (fun cb => cb.id = ob.id) with
  | some cb => some cb.id
  | none =>
    (c.find? (fun cb => getBlockSignature cb = getBlockSignature ob)).map
      (fun cb => cb.id)

/-- Modelled from the spec's words: the backward scan for the deleted-diff
anchor, with the counterpart resolved by `specCounterpart`. -/
def specScanBack (o c : List Block) (matched : List Nat) : Nat → Option String
  | 0 => none
  | j + 1 =>
    if matched.contains j then
      match specCounterpart c (o.getD j dummyBlock) with
      | some id => some id
      | none => specScanBack o c matched j
    else
      specScanBack o c matched j

/-! ## Basic lemmas about the helpers -/

theorem withIdxFrom_length {α : Type} :
    ∀ (k : Nat) (l : List α), (withIdxFrom k l).length = l.length := by
  intro k l
  induction l generalizing k with
  | nil => rfl
  | cons b bs ih => simp [withIdxFrom, ih]

theorem withIdx_length {α : Type} (l : List α) :
    (withIdx l).length = l.length :=
  withIdxFrom_length 0 l

theorem snd_mem_withIdxFrom {α : Type} :
    ∀ (k : Nat) (l : List α) (p : α × Nat), p ∈ withIdxFrom k l →
      k ≤ p.2 ∧ p.2 < k + l.length := by
  intro k l
  induction l generalizing k with
  | nil => intro p h; cases h
  | cons b bs ih =>
    intro p h
    simp only [withIdxFrom, List.mem_cons] at h
    rcases h with rfl | h
    · show k ≤ k ∧ k < k + (b :: bs).length
      simp only [List.length_cons]
      omega
    · have := ih (k + 1) p h
      simp only [List.length_cons]
      omega

theorem mapGet_nil {α : Type} (k : String) :
    mapGet ([] : List (String × α)) k = none := rfl

theorem idMap_nil : idMap [] = [] := rfl

theorem pass1Step_nil_tbl (st : MatchState) (e : String × Block × Nat) :
    pass1Step [] st e = st := rfl

theorem foldl_pass1Step_nil :
    ∀ (es : List (String × Block × Nat)) (st : MatchState),
      es.foldl (pass1Step []) st = st := by
  intro es
  induction es with
  | nil => intro st; rfl
  | cons e es ih => intro st; rw [List.foldl_cons, pass1Step_nil_tbl, ih]

theorem unmatchedOf_nil_matched (blocks : List Block) :
    unmatchedOf blocks [] = withIdx blocks := by
  rw [unmatchedOf, List.filter_eq_self]
  intro a _
  simp [List.contains]

/-! ## Fuel irrelevance for the LCS table and backtracking -/

theorem dpAux_fuel_eq (sa sb : List String) :
    ∀ (f g i j : Nat), i + j ≤ f → i + j ≤ g →
      dpAux sa sb f i j = dpAux sa sb g i j := by
  intro f
  induction f with
  | zero =>
    intro g i j hf _
    match i, j with
    | 0, j => simp [dpAux]
    | i + 1, 0 => simp [dpAux]
    | i + 1, j + 1 => omega
  | succ f ih =>
    intro g i j hf hg
    match i, j with
    | 0, j => simp [dpAux]
    | i + 1, 0 => simp [dpAux]
    | i + 1, j + 1 =>
      match g with
      | 0 => omega
      | g + 1 =>
        simp only [dpAux]
        rw [ih g i j (by omega) (by omega),
          ih g i (j + 1) (by omega) (by omega),
          ih g (i + 1) j (by omega) (by omega)]

theorem btAux_fuel_eq (sa sb : List String) :
    ∀ (f g i j : Nat), i + j ≤ f → i + j ≤ g →
      btAux sa sb f i j = btAux sa sb g i j := by
  intro f
  induction f with
  | zero =>
    intro g i j hf _
    match i, j with
    | 0, j => simp [btAux]
    | i + 1, 0 => simp [btAux]
    | i + 1, j + 1 => omega
  | succ f ih =>
    intro g i j hf hg
    match i, j with
    | 0, j => simp [btAux]
    | i + 1, 0 => simp [btAux]
    | i + 1, j + 1 =>
      match g with
      | 0 => omega
      | g + 1 =>
        simp only [btAux]
        rw [ih g i j (by omega) (by omega),
          ih g i (j + 1) (by omega) (by omega),
          ih g (i + 1) j (by omega) (by omega)]

/-- The JS table recurrence, recovered for `dp`: the embedding really is the
`dp[i][j] = sig-match ? dp[i-1][j-1]+1 : max(dp[i-1][j], dp[i][j-1])`
table. -/
theorem dp_succ_succ (sa sb : List String) (i j : Nat) :
    dp sa sb (i + 1) (j + 1) =
      if sa.getD i "" = sb.getD j "" then dp sa sb i j + 1
      else max (dp sa sb i (j + 1)) (dp sa sb (i + 1) j) := by
  show dpAux sa sb ((i + 1) + (j + 1)) (i + 1) (j + 1) = _
  have h : (i + 1) + (j + 1) = (i + j + 1) + 1 := by omega
  rw [h]
  simp only [dpAux]
  rw [dpAux_fuel_eq sa sb (i + j + 1) (i + j) i j (by omega) (by omega),
    dpAux_fuel_eq sa sb (i + j + 1) (i + (j + 1)) i (j + 1) (by omega) (by omega),
    dpAux_fuel_eq sa sb (i + j + 1) ((i + 1) + j) (i + 1) j (by omega) (by omega)]
  rfl

/-! ## Claim C4 — LCS backtracking tie-break -/

/-- C4: at every non-matching cell `(i+1, j+1)` of the table walked by the
backtracking of `computeLCS`, the walk skips the original-side element
(moves to cell `(i, j+1)`) exactly when the sub-problem value
`dp[i][j+1]` from skipping the original side is strictly greater than the
sub-problem value `dp[i+1][j]` from skipping the current side, and
otherwise — ties included — skips the current-side element (moves to
`(i+1, j)`). -/
theorem backtrack_tie_break (sa sb : List String) (i j : Nat)
    (hne : sa.getD i "" ≠ sb.getD j "") :
    (dp sa sb i (j + 1) > dp sa sb (i + 1) j →
      backtrack sa sb (i + 1) (j + 1) = backtrack sa sb i (j + 1)) ∧
    (¬ dp sa sb i (j + 1) > dp sa sb (i + 1) j →
      backtrack sa sb (i + 1) (j + 1) = backtrack sa sb (i + 1) j) := by
  have hunf : backtrack sa sb (i + 1) (j + 1) =
      if sa.getD i "" = sb.getD j "" then
        btAux sa sb (i + j + 1) i j ++ [(i, j)]
      else if dp sa sb i (j + 1) > dp sa sb (i + 1) j then
        btAux sa sb (i + j + 1) i (j + 1)
      else
        btAux sa sb (i + j + 1) (i + 1) j := by
    show btAux sa sb ((i + 1) + (j + 1)) (i + 1) (j + 1) = _
    have h : (i + 1) + (j + 1) = (i + j + 1) + 1 := by omega
    rw [h]
    simp only [btAux]
  constructor <;> intro h
  · rw [hunf, if_neg hne, if_pos h]
    exact btAux_fuel_eq sa sb (i + j + 1) (i + (j + 1)) i (j + 1)
      (by omega) (by omega)
  · rw [hunf, if_neg hne, if_neg h]
    exact btAux_fuel_eq sa sb (i + j + 1) ((i + 1) + j) (i + 1) j
      (by omega) (by omega)

/-- Witness for `backtrack_tie_break`: a strict-greater cell really skips
the original side, and a tie really skips the current side. -/
theorem backtrack_tie_break_witness :
    backtrack ["a", "x"] ["a"] 2 1 = backtrack ["a", "x"] ["a"] 1 1 ∧
    backtrack ["a"] ["b"] 1 1 = backtrack ["a"] ["b"] 1 0 :=
  ⟨(backtrack_tie_break ["a", "x"] ["a"] 1 0 (by decide)).1 (by decide),
   (backtrack_tie_break ["a"] ["b"] 0 0 (by decide)).2 (by decide)⟩

/-! ## Claim C3 — Scenario B -/

/-- C3: on Scenario B — original `[x: "A", y: "B"]`, current
`[z: "A", y: "B"]` with only the first block's id changed —
`computeBlockDiffs` returns exactly two diffs, both `unchanged` (so zero
added, modified or deleted), and the pass-2 LCS on the leftovers indeed
matches `x` with `z` by signature. -/
theorem scenarioB_all_unchanged :
    computeBlockDiffs
        [{ id := "x", type := "paragraph", text := some "A" },
         { id := "y", type := "paragraph", text := some "B" }]
        [{ id := "z", type := "paragraph", text := some "A" },
         { id := "y", type := "paragraph", text := some "B" }] =
      [{ type := .unchanged, blockId := "y", position := 1 },
       { type := .unchanged, blockId := "z", position := 0 }] ∧
    computeLCS [{ id := "x", type := "paragraph", text := some "A" }]
        [{ id := "z", type := "paragraph", text := some "A" }] = [(0, 0)] := by
  decide

/-! ## Claim C9 — empty-side behavior -/

theorem filterMap_some_eq_map {α β : Type} (g : α → β) (l : List α) :
    l.filterMap (fun a => some (g a)) = l.map g :=
  congrFun (List.filterMap_eq_map g) l

theorem scanBack_nil (o c : List Block) : ∀ n, scanBack o c [] n = none := by
  intro n
  induction n with
  | zero => rfl
  | succ n ih => simp [scanBack, ih]

theorem pass3_nil_orig (c : List Block) (m : List Nat) :
    pass3 [] c m = [] := rfl

theorem pass3_nil_matched (o c : List Block) :
    pass3 o c [] = (withIdx o).map (deletedDiffOf o c []) := by
  rw [pass3]
  simp only [List.contains_nil, Bool.false_eq_true, if_false]
  exact filterMap_some_eq_map _ _

theorem stateAfterPass2_nil_left (A : List Block) :
    stateAfterPass2 [] A =
      { matchedOriginal := [], matchedCurrent := [],
        diffs := (withIdx A).map addedDiffOf } := by
  have h1 : pass1 [] A = ⟨[], [], []⟩ := by
    rw [pass1, idMap_nil, foldl_pass1Step_nil]
  simp only [stateAfterPass2, h1]
  show pass2 ⟨[], [], []⟩ (unmatchedOf [] []) (unmatchedOf A []) = _
  rw [unmatchedOf_nil_matched A]
  show pass2 ⟨[], [], []⟩ [] (withIdx A) = _
  rw [pass2, if_neg (by simp)]
  simp

theorem stateAfterPass2_nil_right (A : List Block) :
    stateAfterPass2 A [] = ⟨[], [], []⟩ := by
  have h1 : pass1 A [] = ⟨[], [], []⟩ := rfl
  simp only [stateAfterPass2, h1]
  show pass2 ⟨[], [], []⟩ (unmatchedOf A []) (unmatchedOf [] []) = _
  rw [unmatchedOf_nil_matched A]
  show pass2 ⟨[], [], []⟩ (withIdx A) [] = _
  rw [pass2, if_neg (by simp)]
  simp

/-- C9: for every block sequence `A`, `computeBlockDiffs([], A)` returns
exactly `|A|` diffs, all of type `added`, and `computeBlockDiffs(A, [])`
returns exactly `|A|` diffs, all of type `deleted` (so in each case no
diff of any other type). -/
theorem compute_empty_sides (A : List Block) :
    ((computeBlockDiffs [] A).length = A.length ∧
      ∀ d ∈ computeBlockDiffs [] A, d.type = .added) ∧
    ((computeBlockDiffs A []).length = A.length ∧
      ∀ d ∈ computeBlockDiffs A [], d.type = .deleted) := by
  have hL : computeBlockDiffs [] A = (withIdx A).map addedDiffOf := by
    simp only [computeBlockDiffs, stateAfterPass2_nil_left]
    show _ ++ pass3 [] A [] = _
    rw [pass3_nil_orig, List.append_nil]
  have hR : computeBlockDiffs A [] = (withIdx A).map (deletedDiffOf A [] []) := by
    simp only [computeBlockDiffs, stateAfterPass2_nil_right]
    show [] ++ pass3 A [] [] = _
    rw [List.nil_append, pass3_nil_matched]
  refine ⟨⟨?_, ?_⟩, ?_, ?_⟩
  · rw [hL, List.length_map, withIdx_length]
  · intro d hd
    rw [hL] at hd
    rcases List.mem_map.mp hd with ⟨x, _, rfl⟩
    rfl
  · rw [hR, List.length_map, withIdx_length]
  · intro d hd
    rw [hR] at hd
    rcases List.mem_map.mp hd with ⟨x, _, rfl⟩
    rfl

/-- Witness for `compute_empty_sides` at the one-block sequence `["a"]`. -/
theorem compute_empty_sides_witness :
    (computeBlockDiffs []
        [{ id := "a", type := "paragraph", text := some "A" }]).length = 1 ∧
    ({ type := .added, blockId := "a", currentText := some "A",
        position := 0 } : BlockDiff).type = .added ∧
    (computeBlockDiffs
        [{ id := "a", type := "paragraph", text := some "A" }] []).length = 1 ∧
    ({ type := .deleted, blockId := "a", originalText := some "A",
        originalType := some "paragraph", position := 0,
        afterBlockId := some none } : BlockDiff).type = .deleted :=
  ⟨by
    have h :=
      (compute_empty_sides
        [{ id := "a", type := "paragraph", text := some "A" }]).1.1
    simpa using h,
   (compute_empty_sides
      [{ id := "a", type := "paragraph", text := some "A" }]).1.2 _ (by decide),
   by
    have h :=
      (compute_empty_sides
        [{ id := "a", type := "paragraph", text := some "A" }]).2.1
    simpa using h,
   (compute_empty_sides
      [{ id := "a", type := "paragraph", text := some "A" }]).2.2 _ (by decide)⟩

/-! ## Claim C7 — index-to-offset mapping (`findDocPosition`) -/

theorem cumLen_zero (tns : List TextRun) : cumLen tns 0 = 0 := rfl

theorem cumLen_cons_succ (tn : TextRun) (rest : List TextRun) (k : Nat) :
    cumLen (tn :: rest) (k + 1) = tn.text.length + cumLen rest k := by
  simp [cumLen]

theorem findDocLoop_none (idx : Nat) :
    ∀ (tns : List TextRun) (cum : Nat),
      cum + cumLen tns tns.length < idx → findDocLoop idx tns cum = none := by
  intro tns
  induction tns with
  | nil => intro cum _; rfl
  | cons tn rest ih =>
    intro cum h
    rw [List.length_cons, cumLen_cons_succ] at h
    rw [findDocLoop, if_neg (by omega)]
    exact ih (cum + tn.text.length) (by omega)

theorem findDocLoop_hit (idx : Nat) :
    ∀ (tns : List TextRun) (cum k : Nat) (hk : k < tns.length),
      (∀ j, j < k → cum + cumLen tns (j + 1) < idx) →
      idx ≤ cum + cumLen tns (k + 1) →
      findDocLoop idx tns cum =
        some ((tns.get ⟨k, hk⟩).fromOffset + (idx - (cum + cumLen tns k))) := by
  intro tns
  induction tns with
  | nil => intro cum k hk; exact absurd hk (by simp)
  | cons tn rest ih =>
    intro cum k hk hlow hhigh
    match k with
    | 0 =>
      rw [cumLen_cons_succ, cumLen_zero] at hhigh
      rw [findDocLoop, if_pos (by omega)]
      simp [cumLen_zero]
    | k + 1 =>
      have h0 : cum + cumLen (tn :: rest) 1 < idx := hlow 0 (by omega)
      rw [cumLen_cons_succ, cumLen_zero] at h0
      rw [findDocLoop, if_neg (by omega)]
      have hk2 : k < rest.length := by
        have := hk; simp only [List.length_cons] at this; omega
      have hres := ih (cum + tn.text.length) k hk2
        (fun j hj => by
          have := hlow (j + 1) (by omega)
          rw [cumLen_cons_succ] at this
          omega)
        (by
          rw [cumLen_cons_succ] at hhigh
          omega)
      rw [hres]
      rw [cumLen_cons_succ]
      congr 2
      omega

/-- C7: for every run list and index into the joined plain text,
`findDocPosition` returns `fromOffset + (index - cumulativeLengthBeforeRun)`
for the run containing the index (the first run whose cumulative end
reaches the index); an index strictly beyond the total joined length maps
to the end offset (`toOffset`) of the last run; and with no runs it maps to
the block start `0`. -/
theorem findDocPosition_spec (tns : List TextRun) (idx : Nat) :
    (tns = [] → findDocPosition tns idx = 0) ∧
    (∀ k, ∀ hk : k < tns.length,
      (∀ j, j < k → cumLen tns (j + 1) < idx) →
      idx ≤ cumLen tns (k + 1) →
      findDocPosition tns idx =
        (tns.get ⟨k, hk⟩).fromOffset + (idx - cumLen tns k)) ∧
    (∀ h : tns ≠ [], cumLen tns tns.length < idx →
      findDocPosition tns idx = (tns.getLast h).toOffset) := by
  refine ⟨?_, ?_, ?_⟩
  · rintro rfl; rfl
  · intro k hk hlow hhigh
    rw [findDocPosition,
      findDocLoop_hit idx tns 0 k hk
        (fun j hj => by rw [Nat.zero_add]; exact hlow j hj)
        (by rw [Nat.zero_add]; exact hhigh)]
    rw [Nat.zero_add]
  · intro h hbeyond
    rw [findDocPosition, findDocLoop_none idx tns 0 (by omega),
      List.getLast?_eq_getLast tns h]

/-- Witness for `findDocPosition_spec`: an in-run index, a beyond-the-end
index, and the no-runs case, on concrete runs. -/
theorem findDocPosition_spec_witness :
    findDocPosition [⟨"ab", 10, 12⟩, ⟨"cd", 20, 22⟩] 3 = 21 ∧
    findDocPosition [⟨"ab", 10, 12⟩, ⟨"cd", 20, 22⟩] 5 = 22 ∧
    findDocPosition [] 7 = 0 :=
  ⟨by
    have h := (findDocPosition_spec [⟨"ab", 10, 12⟩, ⟨"cd", 20, 22⟩] 3).2.1
      1 (by decide) (by decide) (by decide)
    rw [h]; rfl,
   by
    have h := (findDocPosition_spec [⟨"ab", 10, 12⟩, ⟨"cd", 20, 22⟩] 5).2.2
      (by decide) (by decide)
    rw [h]; rfl,
   (findDocPosition_spec [] 7).1 rfl⟩

/-! ## Claim C5 — running index and delete segments -/

theorem advanceLen_nil : advanceLen [] = 0 := rfl

theorem advanceLen_cons (s : Seg) (rest : List Seg) :
    advanceLen (s :: rest) =
      (match s.type with
       | .delete => 0
       | _ => s.value.length) + advanceLen rest := by
  simp [advanceLen]

/-- C5: folding the segment loop of `buildInlineDecorations` advances the
running index by exactly the summed lengths of the `equal` and `insert`
values (`delete` contributes nothing), and a `delete` segment produces
exactly one widget decoration anchored at the single offset
`findDocPosition textNodes index` — no range — leaving the running index
unchanged. -/
theorem inline_delete_no_advance (tns : List TextRun) (segs : List Seg)
    (i : Nat) (decs : List Deco) :
    ((segs.foldl (inlineStep tns) (i, decs)).1 = i + advanceLen segs) ∧
    (∀ seg : Seg, seg.type = .delete →
      inlineStep tns (i, decs) seg =
        (i, decs ++ [Deco.widget (findDocPosition tns i) seg.value (-1)])) := by
  constructor
  · induction segs generalizing i decs with
    | nil => simp [advanceLen_nil]
    | cons s rest ih =>
      rw [List.foldl_cons, advanceLen_cons]
      rcases s with ⟨ty, v⟩
      cases ty <;>
        · rw [inlineStep]
          simp only []
          rw [ih]
          omega
  · intro seg hdel
    rcases seg with ⟨ty, v⟩
    cases ty <;> first
      | rfl
      | exact absurd hdel (by simp)

/-- Witness for `inline_delete_no_advance` on concrete runs and segments. -/
theorem inline_delete_no_advance_witness :
    (([⟨.equal, "ab"⟩, ⟨.delete, "zz"⟩, ⟨.insert, "c"⟩] :
        List Seg).foldl (inlineStep [⟨"ab", 10, 12⟩, ⟨"cd", 20, 22⟩]) (0, [])).1 =
      0 + advanceLen [⟨.equal, "ab"⟩, ⟨.delete, "zz"⟩, ⟨.insert, "c"⟩] ∧
    inlineStep [⟨"ab", 10, 12⟩, ⟨"cd", 20, 22⟩] (2, []) ⟨.delete, "zz"⟩ =
      (2, [Deco.widget
        (findDocPosition [⟨"ab", 10, 12⟩, ⟨"cd", 20, 22⟩] 2) "zz" (-1)]) :=
  ⟨(inline_delete_no_advance [⟨"ab", 10, 12⟩, ⟨"cd", 20, 22⟩]
      [⟨.equal, "ab"⟩, ⟨.delete, "zz"⟩, ⟨.insert, "c"⟩] 0 []).1,
   (inline_delete_no_advance [⟨"ab", 10, 12⟩, ⟨"cd", 20, 22⟩] [] 2 []).2
      ⟨.delete, "zz"⟩ rfl⟩

/-! ## Claim C6 — insert segments clipped per run -/

theorem clipAtAux_zero (tns : List TextRun) (s e k : Nat) :
    clipAtAux tns s e 0 k = clippedRangeForRun tns s e k := by
  unfold clipAtAux clippedRangeForRun
  simp [Nat.zero_add]

theorem clipAtAux_cons_succ (tn : TextRun) (rest : List TextRun)
    (s e cum k : Nat) :
    clipAtAux (tn :: rest) s e cum (k + 1) =
      clipAtAux rest s e (cum + tn.text.length) k := by
  unfold clipAtAux
  simp only [cumLen_cons_succ, List.getD_cons_succ, ← Nat.add_assoc]

theorem clipAtAux_cons_zero (tn : TextRun) (rest : List TextRun)
    (s e cum : Nat) :
    clipAtAux (tn :: rest) s e cum 0 =
      if max s cum < min e (cum + tn.text.length) then
        some (Deco.inline (tn.fromOffset + (max s cum - cum))
          (tn.fromOffset + (min e (cum + tn.text.length) - cum)) "diff-insert")
      else none := by
  unfold clipAtAux
  simp [cumLen_zero, cumLen_cons_succ]

theorem cumLen_succ_getD :
    ∀ (tns : List TextRun) (k : Nat), k < tns.length →
      cumLen tns (k + 1) = cumLen tns k + (tns.getD k dummyRun).text.length := by
  intro tns
  induction tns with
  | nil => intro k hk; simp at hk
  | cons tn rest ih =>
    intro k hk
    match k with
    | 0 => simp [cumLen_cons_succ, cumLen_zero, List.getD_cons_zero]
    | k + 1 =>
      rw [cumLen_cons_succ, cumLen_cons_succ, List.getD_cons_succ,
        ih k (by simp only [List.length_cons] at hk; omega)]
      omega

theorem insertClips_eq_filterMap (s e : Nat) :
    ∀ (tns : List TextRun) (cum : Nat),
      insertClips s e tns cum =
        (List.range tns.length).filterMap (clipAtAux tns s e cum) := by
  intro tns
  induction tns with
  | nil => intro cum; rfl
  | cons tn rest ih =>
    intro cum
    have hstep : insertClips s e (tn :: rest) cum =
        (if cum + tn.text.length > s ∧ cum < e then
          if tn.fromOffset + (max s cum - cum) <
              tn.fromOffset + (min e (cum + tn.text.length) - cum) then
            [Deco.inline (tn.fromOffset + (max s cum - cum))
              (tn.fromOffset + (min e (cum + tn.text.length) - cum))
              "diff-insert"]
          else []
        else []) ++ insertClips s e rest (cum + tn.text.length) := rfl
    rw [hstep, ih (cum + tn.text.length), List.length_cons,
      List.range_succ_eq_map]
    have htail : (List.filterMap (clipAtAux (tn :: rest) s e cum)
          ((List.range rest.length).map Nat.succ)) =
        (List.range rest.length).filterMap
          (clipAtAux rest s e (cum + tn.text.length)) := by
      rw [List.filterMap_map]
      exact List.filterMap_congr
        (fun k _ => clipAtAux_cons_succ tn rest s e cum k)
    by_cases hc : max s cum < min e (cum + tn.text.length)
    · rw [List.filterMap_cons_some (by rw [clipAtAux_cons_zero, if_pos hc]),
        htail, if_pos (by omega), if_pos (by omega)]
      rfl
    · rw [List.filterMap_cons_none (by rw [clipAtAux_cons_zero, if_neg hc]),
        htail]
      by_cases ho : cum + tn.text.length > s ∧ cum < e
      · rw [if_pos ho, if_neg (by omega), List.nil_append]
      · rw [if_neg ho, List.nil_append]

/-- C6: for an `insert` segment mapped over index range `[s, e)`, the
emissions of the run loop are exactly one clipped sub-range per run whose
index span has a non-empty intersection with `[s, e)` (in run order), and
every emitted range lies inside the offsets of the single run it was
clipped to — never spanning the gap between two runs. -/
theorem insert_clips_per_run (tns : List TextRun) (s e : Nat) :
    (insertClips s e tns 0 =
      (List.range tns.length).filterMap (clippedRangeForRun tns s e)) ∧
    (∀ d ∈ insertClips s e tns 0, ∃ k, k < tns.length ∧
      clippedRangeForRun tns s e k = some d ∧
      ∃ f t, d = Deco.inline f t "diff-insert" ∧
        (tns.getD k dummyRun).fromOffset ≤ f ∧
        t ≤ (tns.getD k dummyRun).fromOffset +
          (tns.getD k dummyRun).text.length) := by
  have h1 : insertClips s e tns 0 =
      (List.range tns.length).filterMap (clippedRangeForRun tns s e) := by
    rw [insertClips_eq_filterMap]
    exact List.filterMap_congr (fun k _ => clipAtAux_zero tns s e k)
  refine ⟨h1, ?_⟩
  intro d hd
  rw [h1] at hd
  rcases List.mem_filterMap.mp hd with ⟨k, hk, hsome⟩
  have hklt : k < tns.length := List.mem_range.mp hk
  refine ⟨k, hklt, hsome, ?_⟩
  unfold clippedRangeForRun at hsome
  by_cases hcond : max s (cumLen tns k) < min e (cumLen tns (k + 1))
  · rw [if_pos hcond] at hsome
    rcases Option.some.inj hsome with rfl
    refine ⟨_, _, rfl, Nat.le_add_right _ _, ?_⟩
    have hsucc := cumLen_succ_getD tns k hklt
    omega
  · rw [if_neg hcond] at hsome
    exact absurd hsome (by simp)

/-- Witness for `insert_clips_per_run`: an insert segment straddling the
gap between two runs yields a clipped range inside a single run. -/
theorem insert_clips_per_run_witness :
    ∃ k, k < ([⟨"ab", 1, 3⟩, ⟨"cd", 10, 12⟩] : List TextRun).length ∧
      clippedRangeForRun [⟨"ab", 1, 3⟩, ⟨"cd", 10, 12⟩] 1 3 k =
        some (Deco.inline 2 3 "diff-insert") ∧
      ∃ f t, Deco.inline 2 3 "diff-insert" = Deco.inline f t "diff-insert" ∧
        (([⟨"ab", 1, 3⟩, ⟨"cd", 10, 12⟩] :
            List TextRun).getD k dummyRun).fromOffset ≤ f ∧
        t ≤ (([⟨"ab", 1, 3⟩, ⟨"cd", 10, 12⟩] :
            List TextRun).getD k dummyRun).fromOffset +
          (([⟨"ab", 1, 3⟩, ⟨"cd", 10, 12⟩] :
            List TextRun).getD k dummyRun).text.length :=
  (insert_clips_per_run [⟨"ab", 1, 3⟩, ⟨"cd", 10, 12⟩] 1 3).2
    (Deco.inline 2 3 "diff-insert") (by decide)

/-! ## Claim C10 — deleted widget with a dangling `afterBlockId` -/

/-- C10: when a `deleted` diff's `afterBlockId` is non-null but names an id
absent from the live document's block-position index, the deleted-block
widget is placed at document start (offset `0`) — the same fallback as for
`afterBlockId = null` — and the widget is still emitted rather than
dropped. -/
theorem deleted_widget_missing_anchor
    (positions : List (String × Nat × Nat)) (diffs : List BlockDiff)
    (d : BlockDiff) (id : String) (hmem : d ∈ diffs)
    (hafter : d.afterBlockId = some (some id))
    (hmiss : mapGet positions id = none) :
    deletedInsertPos positions d.afterBlockId = 0 ∧
    deletedInsertPos positions (some none) = 0 ∧
    Deco.blockWidget 0 (jsOr d.originalText "")
        (jsOr d.originalType "paragraph") 1 ("deleted-" ++ d.blockId) ∈
      buildDeletedWidgets positions diffs := by
  have hpos : deletedInsertPos positions d.afterBlockId = 0 := by
    rw [hafter]
    show (if id = "" then 0
      else
        match mapGet positions id with
        | some pr => pr.2
        | none => 0) = 0
    by_cases hid : id = ""
    · rw [if_pos hid]
    · rw [if_neg hid, hmiss]
  refine ⟨hpos, rfl, ?_⟩
  unfold buildDeletedWidgets
  refine List.mem_map.mpr ⟨d, hmem, ?_⟩
  rw [hpos]

/-- Witness for `deleted_widget_missing_anchor`: the index knows block
`"a"` only, while the deleted diff's anchor names the absent id `"zz"`. -/
theorem deleted_widget_missing_anchor_witness :
    deletedInsertPos [("a", 5, 9)]
      (({ type := .deleted, blockId := "g", originalText := some "T",
          originalType := some "paragraph", position := 0,
          afterBlockId := some (some "zz") } : BlockDiff).afterBlockId) = 0 ∧
    deletedInsertPos [("a", 5, 9)] (some none) = 0 ∧
    Deco.blockWidget 0 (jsOr (some "T") "") (jsOr (some "paragraph") "paragraph")
        1 ("deleted-" ++ "g") ∈
      buildDeletedWidgets [("a", 5, 9)]
        [{ type := .deleted, blockId := "g", originalText := some "T",
           originalType := some "paragraph", position := 0,
           afterBlockId := some (some "zz") }] :=
  deleted_widget_missing_anchor [("a", 5, 9)]
    [{ type := .deleted, blockId := "g", originalText := some "T",
       originalType := some "paragraph", position := 0,
       afterBlockId := some (some "zz") }]
    { type := .deleted, blockId := "g", originalText := some "T",
      originalType := some "paragraph", position := 0,
      afterBlockId := some (some "zz") }
    "zz" (by decide) rfl (by decide)

/-! ## Claim C2 — `afterBlockId` of deleted diffs -/

/-- A fold whose step only ever appends non-`deleted` diffs keeps the diff
list free of `deleted` entries. -/
theorem foldl_diffs_ne_deleted {β : Type} (step : MatchState → β → MatchState)
    (hstep : ∀ st b d, d ∈ (step st b).diffs → d ∈ st.diffs ∨ d.type ≠ .deleted) :
    ∀ (l : List β) (st : MatchState),
      (∀ d ∈ st.diffs, d.type ≠ .deleted) →
      ∀ d ∈ (l.foldl step st).diffs, d.type ≠ .deleted := by
  intro l
  induction l with
  | nil => intro st h; exact h
  | cons b bs ih =>
    intro st h
    rw [List.foldl_cons]
    apply ih
    intro d hd
    rcases hstep st b d hd with h1 | h1
    · exact h d h1
    · exact h1

theorem pass1Step_diffs (tbl : List (String × Block × Nat))
    (st : MatchState) (e : String × Block × Nat) (d : BlockDiff)
    (hd : d ∈ (pass1Step tbl st e).diffs) :
    d ∈ st.diffs ∨ d.type ≠ .deleted := by
  unfold pass1Step at hd
  cases hget : mapGet tbl e.1 with
  | none => rw [hget] at hd; exact Or.inl hd
  | some pr =>
    obtain ⟨ob, oidx⟩ := pr
    rw [hget] at hd
    simp only [] at hd
    rcases List.mem_append.mp hd with h1 | h1
    · exact Or.inl h1
    · rcases List.mem_singleton.mp h1 with rfl
      right
      split <;> simp

theorem pass2LcsStep_diffs (uO uC : List (Block × Nat)) (s : MatchState)
    (pr : Nat × Nat) (d : BlockDiff)
    (hd : d ∈ (pass2LcsStep uO uC s pr).diffs) :
    d ∈ s.diffs ∨ d.type ≠ .deleted := by
  unfold pass2LcsStep at hd
  rcases List.mem_append.mp hd with h1 | h1
  · exact Or.inl h1
  · rcases List.mem_singleton.mp h1 with rfl
    right
    simp

theorem pass2_no_deleted (st : MatchState) (uO uC : List (Block × Nat))
    (h : ∀ d ∈ st.diffs, d.type ≠ .deleted) :
    ∀ d ∈ (pass2 st uO uC).diffs, d.type ≠ .deleted := by
  unfold pass2
  by_cases hcond : uO.length > 0 ∧ uC.length > 0
  · rw [if_pos hcond]
    intro d hd
    simp only [] at hd
    rcases List.mem_append.mp hd with h1 | h1
    · exact foldl_diffs_ne_deleted (pass2LcsStep uO uC)
        (pass2LcsStep_diffs uO uC) _ st h d h1
    · rcases List.mem_filterMap.mp h1 with ⟨p, _, hsome⟩
      by_cases hc2 : (List.map Prod.snd
          (computeLCS (uO.map Prod.fst) (uC.map Prod.fst))).contains p.2
      · rw [if_pos hc2] at hsome
        exact absurd hsome (by simp)
      · rw [if_neg hc2] at hsome
        rcases Option.some.inj hsome with rfl
        simp [addedDiffOf]
  · rw [if_neg hcond]
    intro d hd
    rcases List.mem_append.mp hd with h1 | h1
    · exact h d h1
    · rcases List.mem_map.mp h1 with ⟨x, _, rfl⟩
      simp [addedDiffOf]

theorem stateAfterPass2_no_deleted (o c : List Block) :
    ∀ d ∈ (stateAfterPass2 o c).diffs, d.type ≠ .deleted := by
  unfold stateAfterPass2
  apply pass2_no_deleted
  unfold pass1
  exact foldl_diffs_ne_deleted (pass1Step (idMap o)) (pass1Step_diffs (idMap o))
    (idMap c) _ (by intro d hd; cases hd)

/-- C2 (amended): every `deleted` diff produced by `computeBlockDiffs`
carries an `afterBlockId`, and its value is the backward scan from the
deleted block's original index for the nearest matched original block whose
counterpart is the *first* current block matching it by identity or by
signature (continuing the scan when no counterpart exists); if none is
found, the value is null. -/
theorem deleted_afterBlockId_resolution (o c : List Block) (d : BlockDiff)
    (hmem : d ∈ computeBlockDiffs o c) (hdel : d.type = .deleted) :
    d.afterBlockId =
      some (scanBack o c (stateAfterPass2 o c).matchedOriginal d.position) := by
  simp only [computeBlockDiffs] at hmem
  rcases List.mem_append.mp hmem with h1 | h1
  · exact absurd hdel (stateAfterPass2_no_deleted o c d h1)
  · unfold pass3 at h1
    rcases List.mem_filterMap.mp h1 with ⟨p, _, hsome⟩
    by_cases hcont : (stateAfterPass2 o c).matchedOriginal.contains p.2
    · rw [if_pos hcont] at hsome
      exact absurd hsome (by simp)
    · rw [if_neg hcont] at hsome
      rcases Option.some.inj hsome with rfl
      rfl

/-- C2 counterexample: at a concrete input the produced deleted diff's
`afterBlockId` differs from the spec-worded resolution ("by identity if
available, else by signature", `specScanBack`): the code takes the first
current block matching by identity *or* signature, which here is the
signature-equal block `"q"` even though an identity counterpart `"p"`
is available. -/
theorem deleted_afterBlockId_spec_counterexample :
    ∃ d ∈ computeBlockDiffs
        [{ id := "p", type := "paragraph", text := some "A" },
         { id := "d", type := "paragraph", text := some "X" }]
        [{ id := "q", type := "paragraph", text := some "A" },
         { id := "p", type := "paragraph", text := some "A" }],
      d.type = .deleted ∧
      d.afterBlockId ≠ some (specScanBack
        [{ id := "p", type := "paragraph", text := some "A" },
         { id := "d", type := "paragraph", text := some "X" }]
        [{ id := "q", type := "paragraph", text := some "A" },
         { id := "p", type := "paragraph", text := some "A" }]
        (stateAfterPass2
          [{ id := "p", type := "paragraph", text := some "A" },
           { id := "d", type := "paragraph", text := some "X" }]
          [{ id := "q", type := "paragraph", text := some "A" },
           { id := "p", type := "paragraph", text := some "A" }]).matchedOriginal
        d.position) := by
  decide

/-- Witness for `deleted_afterBlockId_resolution` at the counterexample
input: the deleted diff for block `"d"` resolves to anchor `"q"`. -/
theorem deleted_afterBlockId_resolution_witness :
    ({ type := .deleted, blockId := "d", originalText := some "X",
       originalType := some "paragraph", position := 1,
       afterBlockId := some (some "q") } : BlockDiff).afterBlockId =
      some (scanBack
        [{ id := "p", type := "paragraph", text := some "A" },
         { id := "d", type := "paragraph", text := some "X" }]
        [{ id := "q", type := "paragraph", text := some "A" },
         { id := "p", type := "paragraph", text := some "A" }]
        (stateAfterPass2
          [{ id := "p", type := "paragraph", text := some "A" },
           { id := "d", type := "paragraph", text := some "X" }]
          [{ id := "q", type := "paragraph", text := some "A" },
           { id := "p", type := "paragraph", text := some "A" }]).matchedOriginal
        ({ type := .deleted, blockId := "d", originalText := some "X",
           originalType := some "paragraph", position := 1,
           afterBlockId := some (some "q") } : BlockDiff).position) :=
  deleted_afterBlockId_resolution
    [{ id := "p", type := "paragraph", text := some "A" },
     { id := "d", type := "paragraph", text := some "X" }]
    [{ id := "q", type := "paragraph", text := some "A" },
     { id := "p", type := "paragraph", text := some "A" }]
    { type := .deleted, blockId := "d", originalText := some "X",
      originalType := some "paragraph", position := 1,
      afterBlockId := some (some "q") }
    (by decide) rfl

/-! ## Claim C8 — `compute(A, A)` is all unchanged -/

theorem withIdxFrom_map_fst {α : Type} :
    ∀ (k : Nat) (l : List α), (withIdxFrom k l).map Prod.fst = l := by
  intro k l
  induction l generalizing k with
  | nil => rfl
  | cons b bs ih => rw [withIdxFrom, List.map_cons, ih (k + 1)]

theorem withIdx_map_fst {α : Type} (l : List α) :
    (withIdx l).map Prod.fst = l :=
  withIdxFrom_map_fst 0 l

theorem withIdxFrom_map_snd {α : Type} :
    ∀ (k : Nat) (l : List α),
      (withIdxFrom k l).map Prod.snd = List.range' k l.length := by
  intro k l
  induction l generalizing k with
  | nil => rfl
  | cons b bs ih =>
    rw [withIdxFrom, List.map_cons, ih (k + 1), List.length_cons,
      List.range'_succ]

theorem withIdx_map_snd {α : Type} (l : List α) :
    (withIdx l).map Prod.snd = List.range' 0 l.length :=
  withIdxFrom_map_snd 0 l

theorem mapInsert_of_fresh {α : Type} (m : List (String × α)) (k : String)
    (v : α) (h : ∀ p ∈ m, p.1 ≠ k) : mapInsert m k v = m ++ [(k, v)] := by
  have hany : m.any (fun p => p.1 = k) = false := by
    rw [List.any_eq_false]
    intro p hp
    simp only [decide_eq_true_eq]
    exact h p hp
  unfold mapInsert
  simp [hany]

theorem mapOfList_eq_self_aux {α : Type} :
    ∀ (l acc : List (String × α)),
      (l.map Prod.fst).Nodup →
      (∀ p ∈ acc, ∀ q ∈ l, p.1 ≠ q.1) →
      l.foldl (fun m p => mapInsert m p.1 p.2) acc = acc ++ l := by
  intro l
  induction l with
  | nil => intro acc _ _; simp
  | cons q l ih =>
    intro acc hnd hdisj
    rw [List.map_cons, List.nodup_cons] at hnd
    rw [List.foldl_cons,
      mapInsert_of_fresh acc q.1 q.2
        (fun p hp => hdisj p hp q (List.mem_cons_self q l)),
      ih (acc ++ [(q.1, q.2)]) hnd.2 ?_]
    · simp
    · intro p hp r hr
      rcases List.mem_append.mp hp with h1 | h1
      · exact hdisj p h1 r (List.mem_cons_of_mem _ hr)
      · rcases List.mem_singleton.mp h1 with rfl
        intro heq
        exact hnd.1 (by rw [heq]; exact List.mem_map_of_mem Prod.fst hr)

theorem mapOfList_eq_self {α : Type} (l : List (String × α))
    (hnd : (l.map Prod.fst).Nodup) : mapOfList l = l := by
  unfold mapOfList
  rw [mapOfList_eq_self_aux l [] hnd (by intro p hp; cases hp)]
  simp

theorem mapGet_of_mem_nodup {α : Type} :
    ∀ (l : List (String × α)) (k : String) (v : α),
      (l.map Prod.fst).Nodup → (k, v) ∈ l → mapGet l k = some v := by
  intro l
  induction l with
  | nil => intro k v _ h; cases h
  | cons q l ih =>
    intro k v hnd hmem
    rw [List.map_cons, List.nodup_cons] at hnd
    rcases List.mem_cons.mp hmem with h1 | h1
    · rcases h1.symm with rfl
      unfold mapGet
      rw [List.find?_cons_of_pos _ (by simp)]
      rfl
    · have hne : ¬ (q.1 = k) := by
        intro heq
        apply hnd.1
        rw [heq]
        exact List.mem_map_of_mem Prod.fst h1
      unfold mapGet
      rw [List.find?_cons_of_neg _ (by simpa using hne)]
      exact ih k v hnd.2 h1

theorem idMap_eq (blocks : List Block) :
    idMap blocks = mapOfList (idPairs blocks) := rfl

theorem idPairs_keys (blocks : List Block) :
    (idPairs blocks).map Prod.fst = blocks.map Block.id := by
  unfold idPairs
  rw [List.map_map,
    show (Prod.fst ∘ fun p : Block × Nat => (p.1.id, p.1, p.2)) =
      (Block.id ∘ Prod.fst) from rfl,
    ← List.map_map, withIdx_map_fst]

theorem foldl_pass1Step_self (tbl : List (String × Block × Nat)) :
    ∀ (es : List (String × Block × Nat)) (st : MatchState),
      (∀ e ∈ es, mapGet tbl e.1 = some e.2) →
      es.foldl (pass1Step tbl) st =
        { matchedOriginal := st.matchedOriginal ++ es.map (fun e => e.2.2),
          matchedCurrent := st.matchedCurrent ++ es.map (fun e => e.2.2),
          diffs := st.diffs ++ es.map (fun e =>
            { type := .unchanged, blockId := e.1, position := e.2.2 }) } := by
  intro es
  induction es with
  | nil => intro st _; simp
  | cons e es ih =>
    obtain ⟨eid, eb, ei⟩ := e
    intro st h
    have hget := h (eid, eb, ei) (List.mem_cons_self _ _)
    have hst : pass1Step tbl st (eid, eb, ei) =
        { matchedOriginal := st.matchedOriginal ++ [ei],
          matchedCurrent := st.matchedCurrent ++ [ei],
          diffs := st.diffs ++
            [{ type := .unchanged, blockId := eid, position := ei }] } := by
      simp only [pass1Step, hget]
      simp
    rw [List.foldl_cons, hst,
      ih _ (fun e' he' => h e' (List.mem_cons_of_mem _ he'))]
    simp

theorem unmatchedOf_all_matched (A : List Block) :
    unmatchedOf A (List.range' 0 A.length) = [] := by
  unfold unmatchedOf
  rw [List.filter_eq_nil_iff]
  intro p hp
  have hb := snd_mem_withIdxFrom 0 A p hp
  simp
  omega

theorem pass2_nil_nil (st : MatchState) : pass2 st [] [] = st := by
  unfold pass2
  rw [if_neg (by simp)]
  simp

theorem pass3_all_matched (o c : List Block) :
    pass3 o c (List.range' 0 o.length) = [] := by
  unfold pass3
  rw [List.filterMap_eq_nil_iff]
  intro p hp
  have hb := snd_mem_withIdxFrom 0 o p hp
  simp
  omega

/-- C8: on any block sequence `A` with pairwise-distinct ids,
`computeBlockDiffs(A, A)` returns one diff per block, all of type
`unchanged` (so zero added, modified or deleted): pass 1 matches every
block to itself by id, leaving nothing for passes 2 and 3. -/
theorem compute_self_unchanged (A : List Block)
    (hids : (A.map Block.id).Nodup) :
    (computeBlockDiffs A A).length = A.length ∧
    ∀ d ∈ computeBlockDiffs A A, d.type = .unchanged := by
  have hkeys : ((idPairs A).map Prod.fst).Nodup := by
    rw [idPairs_keys]; exact hids
  have hmap : idMap A = idPairs A := by
    rw [idMap_eq, mapOfList_eq_self _ hkeys]
  have hlook : ∀ e ∈ idPairs A, mapGet (idPairs A) e.1 = some e.2 := by
    intro e he
    exact mapGet_of_mem_nodup _ e.1 e.2 hkeys he
  have hp1 : pass1 A A =
      { matchedOriginal := (idPairs A).map (fun e => e.2.2),
        matchedCurrent := (idPairs A).map (fun e => e.2.2),
        diffs := (idPairs A).map (fun e =>
          { type := .unchanged, blockId := e.1, position := e.2.2 }) } := by
    unfold pass1
    rw [hmap, foldl_pass1Step_self (idPairs A) (idPairs A) _ hlook]
    simp
  have hsnd : (idPairs A).map (fun e => e.2.2) = List.range' 0 A.length := by
    unfold idPairs
    rw [List.map_map,
      show ((fun e : String × Block × Nat => e.2.2) ∘
        fun p : Block × Nat => (p.1.id, p.1, p.2)) = Prod.snd from rfl]
    exact withIdx_map_snd A
  have hst2 : stateAfterPass2 A A =
      { matchedOriginal := List.range' 0 A.length,
        matchedCurrent := List.range' 0 A.length,
        diffs := (idPairs A).map (fun e =>
          { type := .unchanged, blockId := e.1, position := e.2.2 }) } := by
    unfold stateAfterPass2
    rw [hp1]
    simp only [hsnd]
    rw [unmatchedOf_all_matched A]
    exact pass2_nil_nil _
  have hfinal : computeBlockDiffs A A = (idPairs A).map (fun e =>
      { type := .unchanged, blockId := e.1, position := e.2.2 }) := by
    simp only [computeBlockDiffs, hst2]
    show _ ++ pass3 A A (List.range' 0 A.length) = _
    rw [pass3_all_matched, List.append_nil]
  constructor
  · rw [hfinal, List.length_map]
    unfold idPairs
    rw [List.length_map, withIdx_length]
  · intro d hd
    rw [hfinal] at hd
    rcases List.mem_map.mp hd with ⟨e, _, rfl⟩
    rfl

/-- Witness for `compute_self_unchanged` at a concrete two-block sequence
with distinct ids. -/
theorem compute_self_unchanged_witness :
    (computeBlockDiffs
        [{ id := "a", type := "paragraph", text := some "A" },
         { id := "b", type := "paragraph", text := some "B" }]
        [{ id := "a", type := "paragraph", text := some "A" },
         { id := "b", type := "paragraph", text := some "B" }]).length = 2 ∧
    ({ type := .unchanged, blockId := "a", position := 0 } :
        BlockDiff).type = .unchanged :=
  ⟨(compute_self_unchanged
      [{ id := "a", type := "paragraph", text := some "A" },
       { id := "b", type := "paragraph", text := some "B" }] (by decide)).1,
   (compute_self_unchanged
      [{ id := "a", type := "paragraph", text := some "A" },
       { id := "b", type := "paragraph", text := some "B" }] (by decide)).2
     _ (by decide)⟩

/-! ## Claim C1 — word-diff reconstruction -/

theorem joinStr_nil : joinStr [] = "" := rfl

theorem joinStr_cons (s : String) (l : List String) :
    joinStr (s :: l) = s ++ joinStr l := rfl

theorem mk_append (a b : List Char) :
    String.mk (a ++ b) = String.mk a ++ String.mk b := rfl

theorem str_append_empty (s : String) : s ++ "" = s := by
  show String.mk (s.data ++ []) = s
  rw [List.append_nil]

theorem tokChars_flatten : ∀ (l : List Char), (tokChars l).flatten = l := by
  intro l
  induction l with
  | nil => rfl
  | cons ch cs ih =>
    rw [tokChars]
    cases hts : tokChars cs with
    | nil =>
      rw [hts] at ih
      simp at ih
      simp [ih]
    | cons t ts =>
      rw [hts] at ih
      cases t with
      | nil =>
        simp at ih
        simp [ih]
      | cons d tl =>
        by_cases hw : isWordChar ch = isWordChar d
        · show (if isWordChar ch = isWordChar d then (ch :: d :: tl) :: ts
            else [ch] :: (d :: tl) :: ts).flatten = ch :: cs
          rw [if_pos hw]
          simp at ih ⊢
          simp [ih]
        · show (if isWordChar ch = isWordChar d then (ch :: d :: tl) :: ts
            else [ch] :: (d :: tl) :: ts).flatten = ch :: cs
          rw [if_neg hw]
          simp at ih ⊢
          simp [ih]

theorem joinStr_map_mk :
    ∀ (ls : List (List Char)),
      joinStr (ls.map String.mk) = String.mk ls.flatten := by
  intro ls
  induction ls with
  | nil => rfl
  | cons c rest ih =>
    rw [List.map_cons, joinStr_cons, ih, List.flatten_cons, mk_append]

theorem joinStr_tokenize (s : String) : joinStr (tokenize s) = s := by
  rw [tokenize, joinStr_map_mk, tokChars_flatten]

theorem joinOriginal_nil : joinOriginal [] = "" := rfl

theorem joinCurrent_nil : joinCurrent [] = "" := rfl

theorem joinOriginal_cons_insert (v : String) (l : List Seg) :
    joinOriginal (⟨.insert, v⟩ :: l) = joinOriginal l := by
  simp [joinOriginal]

theorem joinOriginal_cons_equal (v : String) (l : List Seg) :
    joinOriginal (⟨.equal, v⟩ :: l) = v ++ joinOriginal l := by
  simp [joinOriginal, joinStr_cons]

theorem joinOriginal_cons_delete (v : String) (l : List Seg) :
    joinOriginal (⟨.delete, v⟩ :: l) = v ++ joinOriginal l := by
  simp [joinOriginal, joinStr_cons]

theorem joinCurrent_cons_delete (v : String) (l : List Seg) :
    joinCurrent (⟨.delete, v⟩ :: l) = joinCurrent l := by
  simp [joinCurrent]

theorem joinCurrent_cons_equal (v : String) (l : List Seg) :
    joinCurrent (⟨.equal, v⟩ :: l) = v ++ joinCurrent l := by
  simp [joinCurrent, joinStr_cons]

theorem joinCurrent_cons_insert (v : String) (l : List Seg) :
    joinCurrent (⟨.insert, v⟩ :: l) = v ++ joinCurrent l := by
  simp [joinCurrent, joinStr_cons]

theorem diffTokens_recon :
    ∀ (n : Nat) (a b : List String), a.length + b.length ≤ n →
      joinOriginal (diffTokens a b) = joinStr a ∧
      joinCurrent (diffTokens a b) = joinStr b := by
  intro n
  induction n with
  | zero =>
    intro a b h
    match a, b with
    | [], [] => simp only [diffTokens]; exact ⟨rfl, rfl⟩
    | [], y :: ys => simp at h
    | x :: xs, _ => simp at h
  | succ n ih =>
    intro a b h
    match a, b with
    | [], [] => simp only [diffTokens]; exact ⟨rfl, rfl⟩
    | [], y :: ys =>
      simp only [diffTokens]
      have hr := ih [] ys (by simp at h ⊢; omega)
      rw [joinOriginal_cons_insert, joinCurrent_cons_insert, hr.1, hr.2,
        joinStr_cons]
      exact ⟨rfl, rfl⟩
    | x :: xs, [] =>
      simp only [diffTokens]
      have hr := ih xs [] (by simp at h ⊢; omega)
      rw [joinOriginal_cons_delete, joinCurrent_cons_delete, hr.1, hr.2,
        joinStr_cons]
      exact ⟨rfl, rfl⟩
    | x :: xs, y :: ys =>
      simp only [diffTokens]
      by_cases hxy : x = y
      · rw [if_pos hxy]
        have hr := ih xs ys (by simp at h ⊢; omega)
        rw [joinOriginal_cons_equal, joinCurrent_cons_equal, hr.1, hr.2,
          joinStr_cons, joinStr_cons, hxy]
        exact ⟨rfl, rfl⟩
      · rw [if_neg hxy]
        by_cases hge : lcsLen xs (y :: ys) ≥ lcsLen (x :: xs) ys
        · rw [if_pos hge]
          have hr := ih xs (y :: ys) (by simp at h ⊢; omega)
          rw [joinOriginal_cons_delete, joinCurrent_cons_delete, hr.1, hr.2,
            joinStr_cons]
          exact ⟨rfl, rfl⟩
        · rw [if_neg hge]
          have hr := ih (x :: xs) ys (by simp at h ⊢; omega)
          rw [joinOriginal_cons_insert, joinCurrent_cons_insert, hr.1, hr.2,
            joinStr_cons]
          exact ⟨rfl, rfl⟩

/-- C1: for every pair of input strings, the segments returned by
`computeWordDiff` reconstruct both inputs: the `equal` and `delete` values
concatenate (in order) to `originalText`, and the `equal` and `insert`
values concatenate to `currentText`. -/
theorem computeWordDiff_reconstruction (o c : String) :
    joinOriginal (computeWordDiff o c) = o ∧
    joinCurrent (computeWordDiff o c) = c := by
  unfold computeWordDiff
  by_cases h1 : o = "" ∧ c = ""
  · obtain ⟨rfl, rfl⟩ := h1
    rw [if_pos ⟨rfl, rfl⟩]
    exact ⟨rfl, rfl⟩
  · rw [if_neg h1]
    by_cases h2 : o = ""
    · rw [if_pos h2]
      subst h2
      refine ⟨rfl, ?_⟩
      rw [joinCurrent_cons_insert, joinCurrent_nil, str_append_empty]
    · rw [if_neg h2]
      by_cases h3 : c = ""
      · rw [if_pos h3]
        subst h3
        refine ⟨?_, rfl⟩
        rw [joinOriginal_cons_delete, joinOriginal_nil, str_append_empty]
      · rw [if_neg h3]
        have hr := diffTokens_recon
          ((tokenize o).length + (tokenize c).length)
          (tokenize o) (tokenize c) (Nat.le_refl _)
        rw [hr.1, hr.2, joinStr_tokenize, joinStr_tokenize]
        exact ⟨rfl, rfl⟩

end Critique
